import Mathlib

/-!
Shallow embedding of the react-scan core: the change-detection engine
(`src/core/instrumentation/index.ts`), the outline lifecycle and animation
engine (`src/core/index.ts`, outline part), and the label/store utilities
(`src/core/utils.ts` and `src/core/web/utils.ts` as bundled in the sources).

JavaScript runtime values that flow through the prop/context diff are
modelled by an inductive `JSValue`; heap identity of objects and functions
is modelled by an explicit `id` field, and the fast structural
serialization of a composite value (computed by `fastSerialize`, whose
source file is not part of the given sources) is modelled as a stored
`ser` field. JavaScript numbers are modelled as rationals (no NaN / -0).
-/

/-- A JavaScript value as seen by the prop/context diff.  Composite values
(objects and functions) carry an identity `id` and their fast structural
serialization `ser`; an object additionally records whether it is a valid
React element (`isElement`). -/
inductive JSValue where
  | undefined : JSValue
  | null : JSValue
  | bool (b : Bool) : JSValue
  | num (q : ℚ) : JSValue
  | str (s : String) : JSValue
  | obj (id : ℕ) (ser : String) (isElement : Bool) : JSValue
  | func (id : ℕ) (ser : String) : JSValue
deriving DecidableEq, Repr

/-- `Object.is` on modelled values: value equality for primitives,
identity (the `id` field) for objects and functions.  The NaN / -0
special cases of `Object.is` have no counterpart in the rational model. -/
def jsIs : JSValue → JSValue → Bool
  | JSValue.undefined, JSValue.undefined => true
  | JSValue.null, JSValue.null => true
  | JSValue.bool a, JSValue.bool b => a == b
  | JSValue.num a, JSValue.num b => a == b
  | JSValue.str a, JSValue.str b => a == b
  | JSValue.obj i _ _, JSValue.obj j _ _ => i == j
  | JSValue.func i _, JSValue.func j _ => i == j
  | _, _ => false

/-- The JavaScript `typeof` operator on modelled values
(`typeof null` is `"object"`). -/
def jsTypeof : JSValue → String
  | JSValue.undefined => "undefined"
  | JSValue.null => "object"
  | JSValue.bool _ => "boolean"
  | JSValue.num _ => "number"
  | JSValue.str _ => "string"
  | JSValue.obj _ _ _ => "object"
  | JSValue.func _ _ => "function"

/-- Modelled from the spec: `fastSerialize`
(`src/core/instrumentation/utils.ts`, not among the given sources) returns
a fast structural serialization of a value; for composite values the model
reads the stored `ser` field, for primitives a canonical rendering. -/
def fastSerialize : JSValue → String
  | JSValue.undefined => "undefined"
  | JSValue.null => "null"
  | JSValue.bool b => toString b
  | JSValue.num q => toString q
  | JSValue.str s => s
  | JSValue.obj _ ser _ => ser
  | JSValue.func _ ser => ser

/-- Modelled from the spec: `React.isValidElement` holds exactly for
objects flagged as host-tree elements. -/
def isValidElement : JSValue → Bool
  | JSValue.obj _ _ isElement => isElement
  | _ => false

/-- `unstableTypes` from `src/core/instrumentation/index.ts`. -/
def unstableTypes : List String := ["function", "object"]

/-- A recorded prop/context change (`Change` interface). -/
structure Change where
  name : String
  prevValue : JSValue
  nextValue : JSValue
  unstable : Bool
deriving DecidableEq, Repr

/-- Kind of a render record. -/
inductive RenderType where
  | props : RenderType
  | context : RenderType
deriving DecidableEq, Repr

/-- A render record (`Render` interface). -/
structure Render where
  type : RenderType
  name : Option String
  time : ℚ
  count : ℕ
  trigger : Bool
  forget : Bool
  changes : Option (List Change)
deriving DecidableEq, Repr

/-- Props are modelled as association lists from prop name to value. -/
abbrev Props := List (String × JSValue)

/-- Reading `props?.[k]`: a missing key yields `undefined`. -/
def propLookup (props : Props) (k : String) : JSValue :=
  match props.find? (fun p => p.1 == k) with
  | some p => p.2
  | none => JSValue.undefined

/-- Key order of `{ ...prev, ...next }`: keys of `prev` in order, then the
keys of `next` not already seen, each key once (first occurrence kept). -/
def dedupKeys (seen : List String) : List String → List String
  | [] => []
  | k :: rest =>
    if seen.contains k then dedupKeys seen rest
    else k :: dedupKeys (k :: seen) rest

/-- The keys iterated by `for (const propName in { ...prevProps, ...nextProps })`. -/
def spreadKeys (prev next : Props) : List String :=
  dedupKeys [] (prev.map Prod.fst ++ next.map Prod.fst)

/-- The unstable upgrade test of `getPropsRender`: the change is marked
unstable exactly when `typeof` of both values is in `unstableTypes` and
their fast serializations coincide. -/
def unstableCheck (pv nv : JSValue) : Bool :=
  unstableTypes.contains (jsTypeof pv) &&
    unstableTypes.contains (jsTypeof nv) &&
    fastSerialize pv == fastSerialize nv

/-- The per-key body of the `getPropsRender` loop: skip the key when the
values are identity-equal, either is a React element, or the key is
`children`; otherwise record a change whose `unstable` flag is the
serialization test. -/
def propChangeAt (prev next : Props) (k : String) : Option Change :=
  let pv := propLookup prev k
  let nv := propLookup next k
  if jsIs pv nv || isValidElement pv || isValidElement nv || k == "children" then
    none
  else
    some { name := k, prevValue := pv, nextValue := nv, unstable := unstableCheck pv nv }

/-- The list of changes accumulated by `getPropsRender`. -/
def getPropsRenderChanges (prev next : Props) : List Change :=
  (spreadKeys prev next).filterMap (propChangeAt prev next)

/-- One context dependency: previous and next memoized value. -/
abbrev ContextDep := JSValue × JSValue

/-- The changes accumulated by the `traverseContexts` callback of
`getContextRender`: a change is pushed for every dependency, and marked
unstable by the same serialization test. -/
def getContextRenderChanges (deps : List ContextDep) : List Change :=
  deps.map fun d =>
    { name := "", prevValue := d.1, nextValue := d.2, unstable := unstableCheck d.1 d.2 }

/-- A fiber node, carrying exactly the data the instrumentation reads.
`hasValidType` models `getType(fiber.type)` returning non-null,
`displayName` models `getDisplayName(type)`, `contexts` models the context
dependency list (`none` when the node has none), `typeId` / `elementTypeId`
model the identities of `fiber.type` / `fiber.elementType`, and
`ancestorTypeIds` the type identities along the `return` chain, nearest
first. -/
structure Fiber where
  hasValidType : Bool
  displayName : Option String
  didRender : Bool
  prevProps : Props
  nextProps : Props
  contexts : Option (List ContextDep)
  selfTime : ℚ
  memoCache : Bool
  typeId : ℕ
  elementTypeId : ℕ
  ancestorTypeIds : List ℕ
deriving DecidableEq, Repr

/-- `getPropsRender`: despite its `Render | null` type annotation the
source always returns a render record, with the accumulated change list. -/
def getPropsRender (f : Fiber) : Option Render :=
  some { type := RenderType.props, count := 1, trigger := false,
         changes := some (getPropsRenderChanges f.prevProps f.nextProps),
         name := f.displayName, time := f.selfTime, forget := f.memoCache }

/-- `getContextRender`: `traverseContexts` (source not among the given
files) is modelled from the spec as succeeding exactly when the node has a
context dependency list; on success the accumulated changes are returned. -/
def getContextRender (f : Fiber) : Option Render :=
  match f.contexts with
  | none => none
  | some deps =>
    some { type := RenderType.context, count := 1, trigger := false,
           changes := some (getContextRenderChanges deps),
           name := f.displayName, time := f.selfTime, forget := f.memoCache }

/-- Options stored in the component allow-list; only `includeChildren` is
read by the interceptor. -/
structure AllowOptions where
  includeChildren : Bool
deriving DecidableEq, Repr

/-- The component allow-list (`WeakMap` keyed by component-type identity),
modelled as an association list from type identity to options. -/
abbrev AllowList := List (ℕ × AllowOptions)

/-- `allowList.has(ty)`. -/
def allowHas (al : AllowList) (ty : ℕ) : Bool :=
  (al.find? (fun p => p.1 == ty)).isSome

/-- `allowList.get(ty)`. -/
def allowGet (al : AllowList) (ty : ℕ) : Option AllowOptions :=
  (al.find? (fun p => p.1 == ty)).map Prod.snd

/-- `allowList?.has(fiber.type) ?? allowList?.has(fiber.elementType)`:
when the allow-list is null both sides are `undefined` (falsy); when it is
non-null the left side is a boolean, so the right side is never consulted. -/
def shouldAllowOf (allowList : Option AllowList) (f : Fiber) : Bool :=
  match allowList with
  | none => false
  | some al => allowHas al f.typeId

/-- Modelled from the spec: the ascending `traverseFiber` walk used for
allow-list filtering (`traverseFiber` lives in
`src/core/instrumentation/fiber.ts`, not among the given sources) finds
the first ancestor whose registered options set `includeChildren`. -/
def findIncludeChildrenAncestor (allowList : Option AllowList) (f : Fiber) : Option ℕ :=
  match allowList with
  | none => none
  | some al => f.ancestorTypeIds.find? fun ty =>
      match allowGet al ty with
      | some o => o.includeChildren
      | none => false

/-- The `handleFiber` closure of the commit handler, returning the list of
render records passed to `onRender` for this node (empty when the node is
filtered out).  The allow-list test mirrors the source literally: the
`!parent && !shouldAllow` early return sits inside `if (shouldAllow)`,
where `!shouldAllow` is false. -/
def handleFiberRenders (allowList : Option AllowList) (trigger : Bool) (f : Fiber) :
    List Render :=
  if !f.hasValidType then []
  else if !f.didRender then []
  else
    let propsRender := getPropsRender f
    let contextRender := getContextRender f
    if propsRender.isNone && contextRender.isNone then []
    else
      let shouldAllow := shouldAllowOf allowList f
      let blocked :=
        if shouldAllow then
          let parent := findIncludeChildrenAncestor allowList f
          parent.isNone && !shouldAllow
        else false
      if blocked then []
      else
        (propsRender.map (fun r => { r with trigger := trigger })).toList ++
          (contextRender.map (fun r => { r with trigger := trigger })).toList

/-- A committed fiber root: the host-provided `memoizedUpdaters` set and
the fibers reached by `traverseFiber(root.current, ...)`, linearized
(`traverseFiber` is not among the given sources; the walk order is
irrelevant to the handler's no-raise property). -/
structure FiberRoot where
  memoizedUpdaters : Option (List Fiber)
  treeFibers : List Fiber

/-- The consumer callbacks passed to `instrument`; each may throw, which
is modelled by returning `Except`. -/
structure Callbacks where
  onCommitStart : Unit → Except String Unit
  onRender : Fiber → Render → Except String Unit
  onCommitFinish : Unit → Except String Unit

/-- The body `handleCommitFiberRoot` of `instrument`: bail out when
paused, invoke `onCommitStart`, classify the trigger fibers then the whole
tree (each emitted render is passed to `onRender`), invoke
`onCommitFinish`.  Any throw in a callback propagates. -/
def handleCommitFiberRoot (allowList : Option AllowList) (isPaused : Bool)
    (cb : Callbacks) (root : FiberRoot) : Except String Unit := do
  if isPaused then return ()
  cb.onCommitStart ()
  match root.memoizedUpdaters with
  | some fibers =>
    fibers.forM fun f => (handleFiberRenders allowList true f).forM (cb.onRender f)
  | none => pure ()
  root.treeFibers.forM fun f =>
    (handleFiberRenders allowList false f).forM (cb.onRender f)
  cb.onCommitFinish ()

/-- The handler installed as `ReactScanInternals.onCommitFiberRoot`: the
body is wrapped in `try { ... } catch (err) { console.error(...) }`, so an
exception is logged and swallowed. -/
def onCommitFiberRootInstalled (allowList : Option AllowList) (isPaused : Bool)
    (cb : Callbacks) (root : FiberRoot) : Except String Unit :=
  match handleCommitFiberRoot allowList isPaused cb root with
  | Except.ok u => Except.ok u
  | Except.error _ => Except.ok ()

/-- A DOMRect as read by the outline code (JavaScript numbers as
rationals). -/
structure Rect where
  top : ℚ
  left : ℚ
  width : ℚ
  height : ℚ
  x : ℚ
  y : ℚ
deriving DecidableEq, Repr

/-- The layout measurement of a non-DOM render surface. -/
structure MeasurementValue where
  width : ℚ
  height : ℚ
  pageX : ℚ
  pageY : ℚ
  x : ℚ
  y : ℚ
deriving DecidableEq, Repr

/-- The `Measurement` tagged union. -/
inductive Measurement where
  | dom (value : Rect) : Measurement
  | native (value : MeasurementValue) : Measurement
deriving DecidableEq, Repr

/-- `assertDom`: returns the rect of a dom measurement and throws
`Error('dom invariant')` otherwise. -/
def assertDom : Measurement → Except String Rect
  | Measurement.dom r => Except.ok r
  | Measurement.native _ => Except.error "dom invariant"

/-- Whether a measurement is the dom variant. -/
def Measurement.isDom : Measurement → Bool
  | Measurement.dom _ => true
  | Measurement.native _ => false

/-- `getOutlineKey`: the region key
`` `${rect.top}-${rect.left}-${rect.width}-${rect.height}` ``. -/
def getOutlineKey (r : Rect) : String :=
  toString r.top ++ "-" ++ toString r.left ++ "-" ++
    toString r.width ++ "-" ++ toString r.height

/-- A `PendingOutline`; the fiber reference is modelled by an identity. -/
structure PendingOutline where
  fiberId : ℕ
  latestMeasurement : Measurement
  renders : List Render
deriving DecidableEq, Repr

/-- The region key of an outline, defined when its measurement is dom. -/
def outlineKey (o : PendingOutline) : Option String :=
  match o.latestMeasurement with
  | Measurement.dom r => some (getOutlineKey r)
  | Measurement.native _ => none

/-- `Map.set`-with-merge used by `mergeOutlines`: a first occurrence of a
key is inserted at the end (`Map` insertion order); a later outline with
an existing key has its renders appended to the existing entry in place. -/
def insertMerge (m : List (String × PendingOutline)) (key : String) (o : PendingOutline) :
    List (String × PendingOutline) :=
  match m with
  | [] => [(key, o)]
  | (k, e) :: rest =>
    if k = key then (k, { e with renders := e.renders ++ o.renders }) :: rest
    else (k, e) :: insertMerge rest key o

/-- The loop of `mergeOutlines`, threading the keyed map. -/
def mergeOutlinesAux (m : List (String × PendingOutline)) :
    List PendingOutline → Except String (List (String × PendingOutline))
  | [] => Except.ok m
  | o :: rest => do
    let r ← assertDom o.latestMeasurement
    mergeOutlinesAux (insertMerge m (getOutlineKey r) o) rest

/-- `mergeOutlines`: group the input by region key, appending renders of a
duplicate key to the first outline seen with that key, and return the
map's values in key insertion order. -/
def mergeOutlines (outlines : List PendingOutline) : Except String (List PendingOutline) :=
  (mergeOutlinesAux [] outlines).map (List.map Prod.snd)

/-- An RGB color. -/
structure Color where
  r : ℤ
  g : ℤ
  b : ℤ
deriving DecidableEq, Repr

/-- An `ActiveOutline`; the stored `resolve` callback (which resolves the
paint promise and calls `options.onPaintFinish`) is modelled by the
identity `resolveId`. -/
structure ActiveOutline where
  outline : PendingOutline
  id : ℕ
  alpha : ℚ
  frame : ℕ
  totalFrames : ℕ
  resolveId : ℕ
  text : Option String
  color : Color
  updatedAt : ℚ
deriving DecidableEq, Repr

/-- The in-place mutation a `fadeOutOutline` tick applies to one active
outline: recompute `alpha = alphaScalar * (1 - frame/totalFrames)` with
`alphaScalar` 0.8 when unstable else 0.2, then `frame++`.
`isOutlineUnstable` (from `src/core/web/utils.ts`, not among the given
sources) is supplied as a predicate. -/
def fadeAdvance (unstableOf : PendingOutline → Bool) (a : ActiveOutline) : ActiveOutline :=
  let alphaScalar : ℚ := if unstableOf a.outline then 8/10 else 2/10
  { a with alpha := alphaScalar * (1 - (a.frame : ℚ) / (a.totalFrames : ℚ)),
           frame := a.frame + 1 }

/-- One iteration of the `fadeOutOutline` loop over one active outline:
read the dom rect (`assertDom`), advance alpha and frame, and report
whether the outline is to be spliced out (`frame > totalFrames` after the
increment). -/
def fadeStep (unstableOf : PendingOutline → Bool) (a : ActiveOutline) :
    Except String (ActiveOutline × Bool) := do
  let _rect ← assertDom a.outline.latestMeasurement
  let a' := fadeAdvance unstableOf a
  pure (a', decide (a'.totalFrames < a'.frame))

/-- A full `fadeOutOutline` tick over the active set: each outline is
advanced and removed when its frame passed `totalFrames`; the second
component collects the identities of the `resolve` callbacks the tick
invokes — the source splices a finished outline out without calling its
stored `resolve`, so nothing is ever collected. -/
def fadeTick (unstableOf : PendingOutline → Bool) :
    List ActiveOutline → Except String (List ActiveOutline × List ℕ)
  | [] => Except.ok ([], [])
  | a :: rest => do
    let (a', removed) ← fadeStep unstableOf a
    let (rest', calls) ← fadeTick unstableOf rest
    pure ((if removed then rest' else a' :: rest'), calls)

/-- Outcome of `getDomNode` + `getRect` for one outline during
`recalcOutlines`: no DOM node, a node whose rect no longer resolves, or a
fresh rect. -/
inductive DomResolution where
  | noNode : DomResolution
  | gone : DomResolution
  | rect (r : Rect) : DomResolution

/-- The active-outline pass of `recalcOutlines`: an outline without a DOM
node is kept untouched, an outline whose rect fails to resolve is spliced
out of the active set, and otherwise the measurement is updated. -/
def recalcActive (resolveOf : ActiveOutline → DomResolution) :
    List ActiveOutline → List ActiveOutline
  | [] => []
  | a :: rest =>
    match resolveOf a with
    | DomResolution.noNode => a :: recalcActive resolveOf rest
    | DomResolution.gone => recalcActive resolveOf rest
    | DomResolution.rect r =>
      { a with outline := { a.outline with latestMeasurement := Measurement.dom r } } ::
        recalcActive resolveOf rest

/-- `Math.round` as used on color channels: `round x = ⌊x + 1/2⌋`, which
is Mathlib's `round` on ℚ. -/
def jsRound (x : ℚ) : ℤ := round x

/-- The start color `{ r: 115, g: 97, b: 230 }` of `paintOutline`. -/
def startColor : Color := { r := 115, g := 97, b := 230 }

/-- The end color `{ r: 185, g: 49, b: 115 }` of `paintOutline`. -/
def endColor : Color := { r := 185, g := 49, b := 115 }

/-- `t = Math.min(renderCount / maxRenders, 1)` of `paintOutline`. -/
def interpT (renderCount maxRenders : ℕ) : ℚ :=
  min ((renderCount : ℚ) / (maxRenders : ℚ)) 1

/-- One interpolated color channel:
`Math.round(start + t * (end - start))`. -/
def lerpChannel (s e : ℤ) (t : ℚ) : ℤ :=
  jsRound ((s : ℚ) + t * ((e : ℚ) - (s : ℚ)))

/-- The color computed by `paintOutline` for a given render count and
configured `maxRenders`. -/
def outlineColor (renderCount maxRenders : ℕ) : Color :=
  let t := interpT renderCount maxRenders
  { r := lerpChannel startColor.r endColor.r t,
    g := lerpChannel startColor.g endColor.g t,
    b := lerpChannel startColor.b endColor.b t }

/-- Rendering environment of `getLabelText`. -/
inductive Env where
  | dom : Env
  | native : Env
deriving DecidableEq, Repr

/-- Per-component aggregation state of `getLabelText`. -/
structure CompAgg where
  count : ℕ
  trigger : Bool
  forget : Bool
deriving DecidableEq, Repr

/-- JavaScript `String.prototype.trim`, modelled at character
granularity: strip leading and trailing whitespace. -/
def jsTrim (s : String) : String :=
  String.mk (((s.data.dropWhile Char.isWhitespace).reverse.dropWhile
    Char.isWhitespace).reverse)

/-- Whether a render contributes to the label: its name is non-null and
not whitespace-only (`!name?.trim()` skips it otherwise). -/
def hasLabelName (r : Render) : Bool :=
  match r.name with
  | none => false
  | some s => !(jsTrim s == "")

/-- `components.set(name, ...)` with the get-or-default read: an existing
entry is updated in place (`Map` keeps its position), a new name is
appended. -/
def bumpComp (m : List (String × CompAgg)) (name : String) (r : Render) :
    List (String × CompAgg) :=
  match m with
  | [] => [(name, { count := r.count, trigger := r.trigger, forget := r.forget })]
  | (k, a) :: rest =>
    if k = name then
      (k, { count := a.count + r.count, trigger := a.trigger || r.trigger,
            forget := a.forget || r.forget }) :: rest
    else (k, a) :: bumpComp rest name r

/-- The aggregation loop of `getLabelText` over the render list,
left-to-right with the map threaded as an accumulator. -/
def aggregateCompsAux (acc : List (String × CompAgg)) : List Render → List (String × CompAgg)
  | [] => acc
  | r :: rest =>
    match r.name with
    | none => aggregateCompsAux acc rest
    | some name =>
      if jsTrim name == "" then aggregateCompsAux acc rest
      else aggregateCompsAux (bumpComp acc name r) rest

/-- The aggregated per-component map of `getLabelText`. -/
def aggregateComps (renders : List Render) : List (String × CompAgg) :=
  aggregateCompsAux [] renders

/-- Stable insertion into a list sorted by descending count. -/
def insertByCountDesc (p : String × CompAgg) :
    List (String × CompAgg) → List (String × CompAgg)
  | [] => [p]
  | q :: rest =>
    if q.2.count < p.2.count then p :: q :: rest
    else q :: insertByCountDesc p rest

/-- The `sort(([, a], [, b]) => b.count - a.count)` step (a stable sort by
descending count). -/
def sortByCountDesc : List (String × CompAgg) → List (String × CompAgg)
  | [] => []
  | p :: rest => insertByCountDesc p (sortByCountDesc rest)

/-- Formatting of one label part: the name, a `×N` count when above one,
and the fire / sparkles decorations in the dom environment. -/
def formatPart (env : Env) (name : String) (a : CompAgg) : String :=
  let t1 := if 1 < a.count then name ++ " ×" ++ toString a.count else name
  let t2 := if env = Env.dom && a.trigger then "🔥 " ++ t1 else t1
  if env = Env.dom && a.forget then t2 ++ " ✨" else t2

/-- `getLabelText`: aggregate, sort, format, join with spaces; return
null for an empty label and truncate to 20 characters plus an ellipsis
otherwise (`slice(0, 20)` modelled at character granularity). -/
def getLabelText (renders : List Render) (env : Env) : Option String :=
  let sorted := sortByCountDesc (aggregateComps renders)
  let parts := sorted.map fun p => formatPart env p.1 p.2
  let labelText := String.intercalate " " parts
  if labelText.length = 0 then none
  else if 20 < labelText.length then
    some (String.mk (labelText.data.take 20 ++ ['…']))
  else some labelText

/-- A primitive JavaScript value (everything but objects and functions;
`null` is a primitive). -/
def isPrimitive : JSValue → Bool
  | JSValue.obj _ _ _ => false
  | JSValue.func _ _ => false
  | _ => true

/-- The concatenation, in input order, of the render lists of the
outlines carrying region key `k`. -/
def rendersWithKey (k : String) : List PendingOutline → List Render
  | [] => []
  | o :: rest =>
    (if outlineKey o = some k then o.renders else []) ++ rendersWithKey k rest

/-- Total number of render records across a list of outlines. -/
def totalRenders (l : List PendingOutline) : ℕ :=
  (l.map fun o => o.renders.length).sum

/-- First entry of the keyed map with the given key. -/
def findEntry : List (String × PendingOutline) → String → Option PendingOutline
  | [], _ => none
  | (k, e) :: rest, key => if k = key then some e else findEntry rest key

/-- Render list stored in the keyed map under `k` (empty when absent). -/
def entryRenders (m : List (String × PendingOutline)) (k : String) : List Render :=
  match findEntry m k with
  | some e => e.renders
  | none => []

/-- Keys of the keyed map, in insertion order. -/
def mapKeys (m : List (String × PendingOutline)) : List String :=
  m.map Prod.fst

/-- Every map entry is stored under its own region key. -/
def goodMap (m : List (String × PendingOutline)) : Prop :=
  ∀ p ∈ m, outlineKey p.2 = some p.1

/-- Total number of render records stored across the keyed map. -/
def totalEntryRenders (m : List (String × PendingOutline)) : ℕ :=
  (m.map fun p => p.2.renders.length).sum

/-- A concrete render record used in the worked examples. -/
def render0 : Render :=
  { type := RenderType.props, name := some "App", time := 1, count := 1,
    trigger := false, forget := false, changes := some [] }

/-- A second concrete render record. -/
def render1 : Render :=
  { type := RenderType.props, name := some "Box", time := 2, count := 1,
    trigger := false, forget := false, changes := some [] }

/-- A concrete rect. -/
def rect0 : Rect := { top := 1, left := 2, width := 3, height := 4, x := 2, y := 1 }

/-- A second concrete rect with a different region key. -/
def rect1 : Rect := { top := 5, left := 6, width := 7, height := 8, x := 6, y := 5 }

/-- A concrete pending outline over `rect0`. -/
def pending0 : PendingOutline :=
  { fiberId := 0, latestMeasurement := Measurement.dom rect0, renders := [render0] }

/-- A pending outline sharing `rect0`'s region key with `pending0`. -/
def pending1 : PendingOutline :=
  { fiberId := 1, latestMeasurement := Measurement.dom rect0, renders := [render1] }

/-- A pending outline over the distinct `rect1`. -/
def pending2 : PendingOutline :=
  { fiberId := 2, latestMeasurement := Measurement.dom rect1, renders := [render0] }

/-- An active outline whose fade is about to complete (`frame` has
reached `totalFrames`). -/
def active0 : ActiveOutline :=
  { outline := pending0, id := 0, alpha := 8/10, frame := 5, totalFrames := 5,
    resolveId := 7, text := some "App", color := startColor, updatedAt := 0 }

/-- An active outline at the start of its fade. -/
def active1 : ActiveOutline :=
  { outline := pending0, id := 1, alpha := 8/10, frame := 0, totalFrames := 5,
    resolveId := 8, text := some "App", color := startColor, updatedAt := 0 }

/-- An unstable-classification predicate that never fires. -/
def neverUnstable : PendingOutline → Bool := fun _ => false

/-- A `recalcOutlines` resolution in which every target's rect fails to
resolve. -/
def alwaysGone : ActiveOutline → DomResolution := fun _ => DomResolution.gone

/-- A fiber whose previous and next props hold the same primitive under
the same key. -/
def fiberSameProps : Fiber :=
  { hasValidType := true, displayName := some "App", didRender := true,
    prevProps := [("x", JSValue.num 1)], nextProps := [("x", JSValue.num 1)],
    contexts := none, selfTime := 0, memoCache := false,
    typeId := 0, elementTypeId := 0, ancestorTypeIds := [] }

/-- A rendered fiber whose type (identity 1) is not registered in the
allow-list and that has no registered ancestor. -/
def fiberUnlisted : Fiber :=
  { hasValidType := true, displayName := some "B", didRender := true,
    prevProps := [("x", JSValue.num 1)], nextProps := [("x", JSValue.num 2)],
    contexts := none, selfTime := 0, memoCache := false,
    typeId := 1, elementTypeId := 1, ancestorTypeIds := [] }

/-- An allow-list registering only type identity 0. -/
def allowListOnlyZero : AllowList := [(0, { includeChildren := true })]

/-- A render with an over-long component name, for the label truncation
example. -/
def renderLongName : Render :=
  { type := RenderType.props, name := some "AbcdefghijKlmnopqrstuvwxyz", time := 1,
    count := 1, trigger := false, forget := false, changes := some [] }

/-- Any change in the props diff output records non-identity-equal values
and carries the serialization-based unstable flag. -/
lemma mem_getPropsRenderChanges {prev next : Props} {c : Change}
    (h : c ∈ getPropsRenderChanges prev next) :
    jsIs c.prevValue c.nextValue = false ∧
      isValidElement c.prevValue = false ∧
      isValidElement c.nextValue = false ∧
      c.unstable = unstableCheck c.prevValue c.nextValue := by
  obtain ⟨k, _hk, hc⟩ := List.mem_filterMap.mp h
  unfold propChangeAt at hc
  dsimp only at hc
  split at hc
  · exact absurd hc (by simp)
  · next hguard =>
    obtain rfl := Option.some_injective _ hc
    simp only [Bool.or_eq_true, not_or, Bool.not_eq_true] at hguard
    exact ⟨hguard.1.1.1, hguard.1.1.2, hguard.1.2, rfl⟩

/-- C1: a Change is only recorded when previous and next are not
identity-equal — refuted: the context pass records a Change for a context
dependency whose previous and next memoized values are identity-equal
(and even marks it unstable). -/
theorem c1_change_identity_counterexample :
    getContextRenderChanges [(JSValue.obj 0 "ctx" false, JSValue.obj 0 "ctx" false)] =
      [{ name := "", prevValue := JSValue.obj 0 "ctx" false,
         nextValue := JSValue.obj 0 "ctx" false, unstable := true }] ∧
    jsIs (JSValue.obj 0 "ctx" false) (JSValue.obj 0 "ctx" false) = true :=
  ⟨rfl, rfl⟩

/-- C1 (amended): every Change produced by the props diff pass has
non-identity-equal previous and next values; the context pass records one
Change per context dependency pair, regardless of identity-equality. -/
theorem c1_change_identity_amended (prev next : Props) (deps : List ContextDep) :
    (∀ c ∈ getPropsRenderChanges prev next, jsIs c.prevValue c.nextValue = false) ∧
    (getContextRenderChanges deps).length = deps.length := by
  refine ⟨fun c hc => (mem_getPropsRenderChanges hc).1, ?_⟩
  simp [getContextRenderChanges]

/-- Witness for `c1_change_identity_amended` at a concrete prop change. -/
theorem c1_change_identity_witness :
    jsIs (JSValue.num 1) (JSValue.num 2) = false :=
  (c1_change_identity_amended [("a", JSValue.num 1)] [("a", JSValue.num 2)] []).1
    { name := "a", prevValue := JSValue.num 1, nextValue := JSValue.num 2,
      unstable := false }
    (by decide)

/-- C2: with previous and next props both `{x:1}` the props diff produces
zero Changes and no props Render is emitted — refuted: the diff produces
zero Changes, but `getPropsRender` always returns a render record, so a
props Render with an empty change list is still emitted. -/
theorem c2_same_props_counterexample :
    getPropsRenderChanges fiberSameProps.prevProps fiberSameProps.nextProps = [] ∧
    handleFiberRenders none false fiberSameProps =
      [{ type := RenderType.props, name := some "App", time := 0, count := 1,
         trigger := false, forget := false, changes := some [] }] :=
  ⟨rfl, rfl⟩

/-- C2 (amended): for a rendered node with a nameable type, no context
dependencies, and identity-equal previous/next prop values under every
key, the props diff produces zero Changes, but a Render of kind props
with an empty change list is still emitted to `onRender`. -/
theorem c2_same_props_amended (f : Fiber) (hty : f.hasValidType = true)
    (hdr : f.didRender = true) (hctx : f.contexts = none)
    (hsame : ∀ k ∈ spreadKeys f.prevProps f.nextProps,
      jsIs (propLookup f.prevProps k) (propLookup f.nextProps k) = true) :
    getPropsRenderChanges f.prevProps f.nextProps = [] ∧
    handleFiberRenders none false f =
      [{ type := RenderType.props, name := f.displayName, time := f.selfTime,
         count := 1, trigger := false, forget := f.memoCache, changes := some [] }] := by
  have hchanges : getPropsRenderChanges f.prevProps f.nextProps = [] := by
    refine List.filterMap_eq_nil.mpr fun k hk => ?_
    unfold propChangeAt
    simp [hsame k hk]
  refine ⟨hchanges, ?_⟩
  unfold handleFiberRenders
  simp [hty, hdr, getPropsRender, getContextRender, hctx, shouldAllowOf, hchanges]

/-- Witness for `c2_same_props_amended` at the `{x:1}` / `{x:1}` node. -/
theorem c2_same_props_witness :
    getPropsRenderChanges fiberSameProps.prevProps fiberSameProps.nextProps = [] ∧
    handleFiberRenders none false fiberSameProps =
      [{ type := RenderType.props, name := fiberSameProps.displayName,
         time := fiberSameProps.selfTime, count := 1, trigger := false,
         forget := fiberSameProps.memoCache, changes := some [] }] :=
  c2_same_props_amended fiberSameProps rfl rfl rfl (by decide)

/-- C4: when an allow-list is configured, a node whose type is neither
registered nor covered by an `includeChildren` ancestor is still emitted:
the filter's early return `!parent && !shouldAllow` is unreachable, so
the allow-list never blocks anything.  The fiber below has type identity
1, the allow-list registers only identity 0, there are no ancestors, yet
the props render is emitted. -/
theorem c4_allowlist_filter_bug :
    shouldAllowOf (some allowListOnlyZero) fiberUnlisted = false ∧
    findIncludeChildrenAncestor (some allowListOnlyZero) fiberUnlisted = none ∧
    handleFiberRenders (some allowListOnlyZero) false fiberUnlisted =
      [{ type := RenderType.props, name := some "B", time := 0, count := 1,
         trigger := false, forget := false,
         changes := some [{ name := "x", prevValue := JSValue.num 1,
                            nextValue := JSValue.num 2, unstable := false }] }] :=
  ⟨rfl, rfl, rfl⟩

/-- C5: the handler installed as `onCommitFiberRoot` wraps the whole
per-commit walk in try/catch, so it never raises to the host, whatever
the consumer callbacks throw. -/
theorem c5_commit_handler_never_raises (allowList : Option AllowList) (isPaused : Bool)
    (cb : Callbacks) (root : FiberRoot) :
    onCommitFiberRootInstalled allowList isPaused cb root = Except.ok () := by
  unfold onCommitFiberRootInstalled
  cases h : handleCommitFiberRoot allowList isPaused cb root with
  | ok u => cases u; rfl
  | error e => rfl

/-- C7: when a fade completes (the tick on which `frame` passes
`totalFrames`), the outline is spliced out of the active set but its
stored `resolve` callback — the only caller of `onPaintFinish` — is never
invoked: the tick reports no invoked callbacks. -/
theorem c7_fade_completion_never_resolves :
    fadeTick neverUnstable [active0] = Except.ok ([], []) := rfl

/-- Bounds on `Math.round` from rational bounds by integers. -/
lemma jsRound_bounds {a b : ℤ} {x : ℚ} (ha : (a : ℚ) ≤ x) (hb : x ≤ (b : ℚ)) :
    a ≤ jsRound x ∧ jsRound x ≤ b := by
  unfold jsRound
  rw [round_eq]
  constructor
  · rw [Int.le_floor]
    push_cast
    linarith
  · by_contra h
    push_neg at h
    have h2 : (b + 1 : ℤ) ≤ ⌊x + 1 / 2⌋ := h
    rw [Int.le_floor] at h2
    push_cast at h2
    linarith

/-- An interpolated channel stays between its endpoints for `t ∈ [0,1]`. -/
lemma lerpChannel_bounds (s e : ℤ) (t : ℚ) (h0 : 0 ≤ t) (h1 : t ≤ 1) :
    min s e ≤ lerpChannel s e t ∧ lerpChannel s e t ≤ max s e := by
  unfold lerpChannel
  have hmin : ((min s e : ℤ) : ℚ) ≤ (s : ℚ) + t * ((e : ℚ) - (s : ℚ)) := by
    rcases le_total s e with hse | hse
    · have hc : (s : ℚ) ≤ (e : ℚ) := Int.cast_le.mpr hse
      rw [min_eq_left hse]
      nlinarith
    · have hc : (e : ℚ) ≤ (s : ℚ) := Int.cast_le.mpr hse
      rw [min_eq_right hse]
      nlinarith
  have hmax : (s : ℚ) + t * ((e : ℚ) - (s : ℚ)) ≤ ((max s e : ℤ) : ℚ) := by
    rcases le_total s e with hse | hse
    · have hc : (s : ℚ) ≤ (e : ℚ) := Int.cast_le.mpr hse
      rw [max_eq_right hse]
      nlinarith
    · have hc : (e : ℚ) ≤ (s : ℚ) := Int.cast_le.mpr hse
      rw [max_eq_left hse]
      nlinarith
  exact jsRound_bounds hmin hmax

/-- `t` is never negative. -/
lemma interpT_nonneg (rc mr : ℕ) : 0 ≤ interpT rc mr :=
  le_min (div_nonneg (Nat.cast_nonneg _) (Nat.cast_nonneg _)) zero_le_one

/-- `t` is clamped to at most 1. -/
lemma interpT_le_one (rc mr : ℕ) : interpT rc mr ≤ 1 :=
  min_le_right _ _

/-- At `t = 1` a channel lands exactly on its end value. -/
lemma lerpChannel_one (s e : ℤ) : lerpChannel s e 1 = e := by
  unfold lerpChannel jsRound
  have h : (s : ℚ) + 1 * ((e : ℚ) - (s : ℚ)) = ((e : ℤ) : ℚ) := by push_cast; ring
  rw [h, round_intCast]

/-- C9: each interpolated color channel is an integer within the closed
interval spanned by the corresponding start and end channels, for every
render count; and for 25 renders with `maxRenders = 20`, `t` clamps to 1
and the color equals the end color exactly. -/
theorem c9_color_interpolation (rc mr : ℕ) (hmr : 0 < mr) :
    (min startColor.r endColor.r ≤ (outlineColor rc mr).r ∧
      (outlineColor rc mr).r ≤ max startColor.r endColor.r) ∧
    (min startColor.g endColor.g ≤ (outlineColor rc mr).g ∧
      (outlineColor rc mr).g ≤ max startColor.g endColor.g) ∧
    (min startColor.b endColor.b ≤ (outlineColor rc mr).b ∧
      (outlineColor rc mr).b ≤ max startColor.b endColor.b) ∧
    interpT 25 20 = 1 ∧ outlineColor 25 20 = endColor := by
  have h0 := interpT_nonneg rc mr
  have h1 := interpT_le_one rc mr
  have ht : interpT 25 20 = 1 := by
    unfold interpT
    rw [min_eq_right (by norm_num)]
  refine ⟨?_, ?_, ?_, ht, ?_⟩
  · simpa [outlineColor] using
      lerpChannel_bounds startColor.r endColor.r (interpT rc mr) h0 h1
  · simpa [outlineColor] using
      lerpChannel_bounds startColor.g endColor.g (interpT rc mr) h0 h1
  · simpa [outlineColor] using
      lerpChannel_bounds startColor.b endColor.b (interpT rc mr) h0 h1
  · simp [outlineColor, ht, lerpChannel_one]

/-- Witness for `c9_color_interpolation` at 25 renders, `maxRenders` 20. -/
theorem c9_color_interpolation_witness : outlineColor 25 20 = endColor :=
  (c9_color_interpolation 25 20 (by norm_num)).2.2.2.2

/-- C3: a surviving prop change is marked unstable exactly when both
values are of composite type (their `typeof` is in `unstableTypes`) and
their fast structural serializations are textually equal; and a change
between two primitive values is never marked unstable. -/
theorem c3_unstable_flag (prev next : Props) :
    ∀ c ∈ getPropsRenderChanges prev next,
      (c.unstable = true ↔
        (jsTypeof c.prevValue ∈ unstableTypes ∧ jsTypeof c.nextValue ∈ unstableTypes ∧
          fastSerialize c.prevValue = fastSerialize c.nextValue)) ∧
      (isPrimitive c.prevValue = true → isPrimitive c.nextValue = true →
        c.unstable = false) := by
  intro c hc
  obtain ⟨hid, _hpe, _hne, hu⟩ := mem_getPropsRenderChanges hc
  obtain ⟨nm, pv, nv, u⟩ := c
  simp only at hid hu ⊢
  subst hu
  constructor
  · unfold unstableCheck
    simp [Bool.and_eq_true, beq_iff_eq, List.elem_iff, and_assoc]
  · intro hp hn
    cases pv <;> cases nv <;>
      simp_all [unstableCheck, jsTypeof, unstableTypes, isPrimitive, jsIs,
        fastSerialize]

/-- Witness for `c3_unstable_flag`: an unstable change implies composite
types and equal serializations at a concrete re-allocated object pair. -/
theorem c3_unstable_flag_witness :
    jsTypeof (JSValue.obj 0 "s" false) ∈ unstableTypes ∧
    jsTypeof (JSValue.obj 1 "s" false) ∈ unstableTypes ∧
    fastSerialize (JSValue.obj 0 "s" false) = fastSerialize (JSValue.obj 1 "s" false) :=
  ((c3_unstable_flag [("a", JSValue.obj 0 "s" false)] [("a", JSValue.obj 1 "s" false)]
    { name := "a", prevValue := JSValue.obj 0 "s" false,
      nextValue := JSValue.obj 1 "s" false, unstable := true }
    (by decide)).1).mp rfl

/-- C8: an active outline is removed only once `frame > totalFrames` —
refuted: `recalcOutlines` splices an active outline out of the active set
whenever its rect fails to resolve, here at `frame = 0 ≤ totalFrames`. -/
theorem c8_frame_monotone_counterexample :
    recalcActive alwaysGone [active1] = [] ∧ active1.frame ≤ active1.totalFrames :=
  ⟨rfl, by decide⟩

/-- A `fadeOutOutline` tick over dom-measured outlines advances every
outline's frame by one and keeps exactly those whose advanced frame has
not passed `totalFrames`, invoking no resolve callback. -/
lemma fadeTick_eq (unstableOf : PendingOutline → Bool) :
    ∀ l : List ActiveOutline,
      (∀ a ∈ l, a.outline.latestMeasurement.isDom = true) →
      fadeTick unstableOf l =
        Except.ok (((l.map (fadeAdvance unstableOf)).filter
          fun a => a.frame ≤ a.totalFrames), [])
  | [], _ => rfl
  | a :: rest, h => by
    have hd := h a (List.mem_cons_self ..)
    have ih := fadeTick_eq unstableOf rest fun x hx => h x (List.mem_cons_of_mem _ hx)
    cases hm : a.outline.latestMeasurement with
    | native v => rw [hm] at hd; simp [Measurement.isDom] at hd
    | dom r =>
      have hstep : fadeStep unstableOf a =
          Except.ok (fadeAdvance unstableOf a,
            decide ((fadeAdvance unstableOf a).totalFrames <
              (fadeAdvance unstableOf a).frame)) := by
        unfold fadeStep
        rw [hm]
        rfl
      by_cases hp : (fadeAdvance unstableOf a).frame ≤ (fadeAdvance unstableOf a).totalFrames
      · simp only [fadeTick, hstep, ih, List.map_cons, List.filter_cons,
          decide_eq_true_eq, hp, if_pos, Nat.not_lt.mpr hp, decide_False]
        rfl
      · simp only [fadeTick, hstep, ih, List.map_cons, List.filter_cons,
          decide_eq_true_eq, hp, if_neg, Nat.not_le.mp hp, decide_True]
        rfl

/-- C8 (amended): within the animation tick, every active outline's frame
increases by exactly one and the outline is removed there exactly when
its frame passes `totalFrames`; `recalcOutlines` may additionally remove
an outline whose geometry fails to resolve, at any frame. -/
theorem c8_frame_monotone_amended (unstableOf : PendingOutline → Bool)
    (l : List ActiveOutline)
    (hdom : ∀ a ∈ l, a.outline.latestMeasurement.isDom = true) :
    fadeTick unstableOf l =
      Except.ok (((l.map (fadeAdvance unstableOf)).filter
        fun a => a.frame ≤ a.totalFrames), []) ∧
    ∀ a ∈ l, (fadeAdvance unstableOf a).frame = a.frame + 1 :=
  ⟨fadeTick_eq unstableOf l hdom, fun _ _ => rfl⟩

/-- Witness for `c8_frame_monotone_amended` on a single fading outline. -/
theorem c8_frame_monotone_witness :
    fadeTick neverUnstable [active1] =
      Except.ok ([fadeAdvance neverUnstable active1], []) :=
  ((c8_frame_monotone_amended neverUnstable [active1] (by decide)).1).trans rfl

/-- Filtering out the renders without a usable name does not change the
label aggregation. -/
lemma aggregateCompsAux_filter (l : List Render) :
    ∀ acc, aggregateCompsAux acc (l.filter hasLabelName) = aggregateCompsAux acc l := by
  induction l with
  | nil => intro acc; rfl
  | cons r rest ih =>
    intro acc
    cases hn : r.name with
    | none => simp [List.filter_cons, hasLabelName, hn, aggregateCompsAux, ih]
    | some s =>
      by_cases hs : jsTrim s = "" <;>
        simp [List.filter_cons, hasLabelName, hn, hs, aggregateCompsAux, ih]

/-- `aggregateComps` ignores renders without a usable name. -/
lemma aggregateComps_filter (l : List Render) :
    aggregateComps (l.filter hasLabelName) = aggregateComps l :=
  aggregateCompsAux_filter l []

/-- Any produced label is non-empty and at most 21 characters long. -/
lemma getLabelText_some {l : List Render} {env : Env} {s : String}
    (h : getLabelText l env = some s) : s.length ≤ 21 ∧ s ≠ "" := by
  unfold getLabelText at h
  dsimp only at h
  split at h
  · exact absurd h (by simp)
  · next h0 =>
    split at h
    · next h20 =>
      obtain rfl := Option.some_injective _ h
      constructor
      · show (List.take 20 _ ++ ['…']).length ≤ 21
        simp [List.length_append, List.length_take]
      · intro hs
        have hdata := congrArg String.data hs
        simp at hdata
    · next h20 =>
      obtain rfl := Option.some_injective _ h
      refine ⟨by omega, fun hs => h0 ?_⟩
      rw [hs]
      rfl

/-- C10: `getLabelText` returns null (never an empty string) when no
render carries a usable component name, ignores renders whose name is
null or whitespace-only, and every produced label has at most 21
characters (20 plus the ellipsis). -/
theorem c10_label_text_spec (renders : List Render) (env : Env) :
    ((∀ r ∈ renders, hasLabelName r = false) → getLabelText renders env = none) ∧
    getLabelText renders env = getLabelText (renders.filter hasLabelName) env ∧
    ∀ s, getLabelText renders env = some s → s.length ≤ 21 ∧ s ≠ "" := by
  have hfe : getLabelText renders env = getLabelText (renders.filter hasLabelName) env := by
    unfold getLabelText
    rw [aggregateComps_filter]
  refine ⟨fun hbad => ?_, hfe, fun s h => getLabelText_some h⟩
  have hf : renders.filter hasLabelName = [] :=
    List.filter_eq_nil.mpr fun r hr => by simp [hbad r hr]
  rw [hfe, hf]
  rfl

/-- Witness for `c10_label_text_spec`: no named render yields no label,
and an over-long name yields a 21-character label. -/
theorem c10_label_text_witness :
    getLabelText [] Env.dom = none ∧
    ("AbcdefghijKlmnopqrst…".length ≤ 21 ∧ "AbcdefghijKlmnopqrst…" ≠ "") :=
  ⟨(c10_label_text_spec [] Env.dom).1 (by simp),
   (c10_label_text_spec [renderLongName] Env.dom).2.2 "AbcdefghijKlmnopqrst…" (by decide)⟩

/-- Updating an outline's render list leaves its region key unchanged. -/
lemma outlineKey_set_renders (e : PendingOutline) (rs : List Render) :
    outlineKey { e with renders := rs } = outlineKey e := rfl

/-- How `insertMerge` changes a lookup: the merged key gains the appended
renders (or a fresh entry), every other key is untouched. -/
lemma findEntry_insertMerge (m : List (String × PendingOutline)) (k : String)
    (o : PendingOutline) (k2 : String) :
    findEntry (insertMerge m k o) k2 =
      if k2 = k then
        match findEntry m k with
        | some e => some { e with renders := e.renders ++ o.renders }
        | none => some o
      else findEntry m k2 := by
  induction m with
  | nil =>
    by_cases h : k2 = k
    · subst h; simp [insertMerge, findEntry]
    · simp [insertMerge, findEntry, h, Ne.symm h]
  | cons p rest ih =>
    obtain ⟨k1, e1⟩ := p
    by_cases h1 : k1 = k
    · subst h1
      by_cases h2 : k2 = k1
      · subst h2; simp [insertMerge, findEntry]
      · simp [insertMerge, findEntry, h2, Ne.symm h2]
    · by_cases h2 : k2 = k1
      · subst h2
        simp [insertMerge, h1, findEntry, Ne.symm h1]
      · simp [insertMerge, h1, findEntry, h2, Ne.symm h2, ih]

/-- `insertMerge` appends the new renders under the merged key and leaves
other keys' renders alone. -/
lemma entryRenders_insertMerge (m : List (String × PendingOutline)) (k : String)
    (o : PendingOutline) (k2 : String) :
    entryRenders (insertMerge m k o) k2 =
      if k2 = k then entryRenders m k ++ o.renders else entryRenders m k2 := by
  unfold entryRenders
  rw [findEntry_insertMerge]
  by_cases h : k2 = k
  · simp only [h, if_pos rfl]
    cases findEntry m k <;> simp
  · simp [h]

/-- `mapKeys` distributes over cons. -/
lemma mapKeys_cons (p : String × PendingOutline) (rest : List (String × PendingOutline)) :
    mapKeys (p :: rest) = p.1 :: mapKeys rest := rfl

/-- `insertMerge` keeps the key list unless the key is new, in which case
it is appended at the end. -/
lemma mapKeys_insertMerge (m : List (String × PendingOutline)) (k : String)
    (o : PendingOutline) :
    mapKeys (insertMerge m k o) =
      if k ∈ mapKeys m then mapKeys m else mapKeys m ++ [k] := by
  induction m with
  | nil => simp [insertMerge, mapKeys]
  | cons p rest ih =>
    obtain ⟨k1, e1⟩ := p
    by_cases h1 : k1 = k
    · subst h1; simp [insertMerge, mapKeys]
    · have hkk1 : ¬k = k1 := fun hh => h1 hh.symm
      simp only [insertMerge, if_neg h1, mapKeys_cons, ih, List.mem_cons, hkk1,
        false_or]
      by_cases h2 : k ∈ mapKeys rest
      · simp [h2]
      · simp [h2]

/-- `insertMerge` preserves the key invariant of the map. -/
lemma goodMap_insertMerge : ∀ (m : List (String × PendingOutline)) (k : String)
    (o : PendingOutline), goodMap m → outlineKey o = some k →
    goodMap (insertMerge m k o)
  | [], k, o, _, ho => by
    intro p hp
    simp [insertMerge] at hp
    subst hp
    exact ho
  | (k1, e1) :: rest, k, o, hm, ho => by
    have hrest : goodMap rest := fun q hq => hm q (List.mem_cons_of_mem _ hq)
    intro p hp
    by_cases h1 : k1 = k
    · subst h1
      simp only [insertMerge, if_pos rfl] at hp
      rcases List.mem_cons.mp hp with h | h
      · subst h
        simpa [outlineKey_set_renders] using hm (k1, e1) (List.mem_cons_self ..)
      · exact hm p (List.mem_cons_of_mem _ h)
    · simp only [insertMerge, if_neg h1] at hp
      rcases List.mem_cons.mp hp with h | h
      · subst h
        exact hm (k1, e1) (List.mem_cons_self ..)
      · exact goodMap_insertMerge rest k o hrest ho p h

/-- `insertMerge` preserves distinctness of the keys. -/
lemma nodup_mapKeys_insertMerge {m : List (String × PendingOutline)} {k : String}
    {o : PendingOutline} (h : (mapKeys m).Nodup) :
    (mapKeys (insertMerge m k o)).Nodup := by
  rw [mapKeys_insertMerge]
  by_cases hk : k ∈ mapKeys m
  · simpa [hk] using h
  · rw [if_neg hk, List.nodup_append]
    refine ⟨h, List.nodup_singleton k, ?_⟩
    intro x hx hc
    simp at hc
    subst hc
    exact hk hx

/-- `insertMerge` adds exactly the inserted outline's renders to the
total stored in the map. -/
lemma totalEntryRenders_insertMerge (m : List (String × PendingOutline)) (k : String)
    (o : PendingOutline) :
    totalEntryRenders (insertMerge m k o) = totalEntryRenders m + o.renders.length := by
  induction m with
  | nil => simp [insertMerge, totalEntryRenders]
  | cons p rest ih =>
    obtain ⟨k1, e1⟩ := p
    by_cases h1 : k1 = k
    · subst h1
      simp [insertMerge, totalEntryRenders]
      omega
    · simp [insertMerge, h1, totalEntryRenders] at ih ⊢
      omega

/-- `rendersWithKey` distributes over cons. -/
lemma rendersWithKey_cons (k : String) (o : PendingOutline) (rest : List PendingOutline) :
    rendersWithKey k (o :: rest) =
      (if outlineKey o = some k then o.renders else []) ++ rendersWithKey k rest := rfl

/-- The merge loop: for dom-measured inputs it succeeds, preserves the
key invariant and key distinctness, appends each key's renders in input
order, accumulates exactly the input keys, and preserves the render
total. -/
lemma mergeOutlinesAux_spec : ∀ (l : List PendingOutline)
    (m : List (String × PendingOutline)),
    (∀ o ∈ l, o.latestMeasurement.isDom = true) →
    ∃ m2, mergeOutlinesAux m l = Except.ok m2 ∧
      (goodMap m → goodMap m2) ∧
      ((mapKeys m).Nodup → (mapKeys m2).Nodup) ∧
      (∀ k, entryRenders m2 k = entryRenders m k ++ rendersWithKey k l) ∧
      (∀ k, k ∈ mapKeys m2 ↔ (k ∈ mapKeys m ∨ ∃ o ∈ l, outlineKey o = some k)) ∧
      totalEntryRenders m2 = totalEntryRenders m + totalRenders l
  | [], m, _ =>
    ⟨m, rfl, id, id, by simp [rendersWithKey], by simp, by simp [totalRenders]⟩
  | o :: rest, m, h => by
    have hd := h o (List.mem_cons_self ..)
    cases hm : o.latestMeasurement with
    | native v => rw [hm] at hd; simp [Measurement.isDom] at hd
    | dom r =>
      have ho : outlineKey o = some (getOutlineKey r) := by
        unfold outlineKey
        rw [hm]
      obtain ⟨m2, h1, h2, h3, h4, h5, h6⟩ :=
        mergeOutlinesAux_spec rest (insertMerge m (getOutlineKey r) o)
          fun x hx => h x (List.mem_cons_of_mem _ hx)
      refine ⟨m2, ?_, ?_, ?_, ?_, ?_, ?_⟩
      · simp only [mergeOutlinesAux, hm, assertDom]
        exact h1
      · exact fun hg => h2 (goodMap_insertMerge m _ o hg ho)
      · exact fun hn => h3 (nodup_mapKeys_insertMerge hn)
      · intro k
        rw [h4 k, entryRenders_insertMerge, rendersWithKey_cons, ho]
        by_cases hk : k = getOutlineKey r
        · subst hk
          simp [List.append_assoc]
        · simp [hk, Ne.symm hk]
      · intro k
        rw [h5 k, mapKeys_insertMerge]
        constructor
        · rintro (hmem | hex)
          · by_cases hkm : getOutlineKey r ∈ mapKeys m
            · rw [if_pos hkm] at hmem
              exact Or.inl hmem
            · rw [if_neg hkm] at hmem
              rcases List.mem_append.mp hmem with hmem | hmem
              · exact Or.inl hmem
              · simp at hmem
                subst hmem
                exact Or.inr ⟨o, List.mem_cons_self .., ho⟩
          · obtain ⟨x, hx, hxk⟩ := hex
            exact Or.inr ⟨x, List.mem_cons_of_mem _ hx, hxk⟩
        · rintro (hmem | ⟨x, hx, hxk⟩)
          · left
            by_cases hkm : getOutlineKey r ∈ mapKeys m
            · rwa [if_pos hkm]
            · rw [if_neg hkm]
              exact List.mem_append.mpr (Or.inl hmem)
          · rcases List.mem_cons.mp hx with rfl | hx
            · left
              rw [ho] at hxk
              obtain rfl := Option.some_injective _ hxk
              by_cases hkm : getOutlineKey r ∈ mapKeys m
              · rwa [if_pos hkm]
              · rw [if_neg hkm]
                exact List.mem_append.mpr (Or.inr (by simp))
            · exact Or.inr ⟨x, hx, hxk⟩
      · rw [h6, totalEntryRenders_insertMerge]
        simp [totalRenders]
        omega

/-- Under the key invariant, the values' keys are exactly the map keys. -/
lemma values_filterMap_outlineKey : ∀ (m : List (String × PendingOutline)),
    goodMap m → (m.map Prod.snd).filterMap outlineKey = mapKeys m
  | [], _ => rfl
  | p :: rest, h => by
    obtain ⟨k, e⟩ := p
    have he : outlineKey e = some k := h (k, e) (List.mem_cons_self ..)
    have ih := values_filterMap_outlineKey rest fun q hq => h q (List.mem_cons_of_mem _ hq)
    simp [mapKeys_cons, List.filterMap_cons, he, ih]

/-- With distinct keys, a map entry is found under its own key. -/
lemma findEntry_of_mem : ∀ (m : List (String × PendingOutline))
    (p : String × PendingOutline), (mapKeys m).Nodup → p ∈ m →
    findEntry m p.1 = some p.2
  | [], p, _, hp => absurd hp (List.not_mem_nil p)
  | q :: rest, p, hn, hp => by
    obtain ⟨k1, e1⟩ := q
    rcases List.mem_cons.mp hp with h | h
    · subst h; simp [findEntry]
    · have hkeys : p.1 ∈ mapKeys rest := by
        unfold mapKeys
        exact List.mem_map_of_mem Prod.fst h
      have hn1 := List.nodup_cons.mp (by simpa [mapKeys_cons] using hn)
      have hne : ¬k1 = p.1 := fun he => hn1.1 (he ▸ hkeys)
      simp only [findEntry, if_neg hne]
      exact findEntry_of_mem rest p hn1.2 h

/-- C6: `mergeOutlines` on dom-measured outlines succeeds and returns
exactly one outline per distinct region key of the input; each output
outline's render list is the concatenation, in input order, of the render
lists of all input outlines with its key; and the total number of render
records is preserved. -/
theorem c6_merge_outlines_spec (outlines : List PendingOutline)
    (hdom : ∀ o ∈ outlines, o.latestMeasurement.isDom = true) :
    ∃ merged, mergeOutlines outlines = Except.ok merged ∧
      (merged.filterMap outlineKey).Nodup ∧
      (∀ k, (∃ o ∈ merged, outlineKey o = some k) ↔
        ∃ o ∈ outlines, outlineKey o = some k) ∧
      (∀ o ∈ merged, ∀ k, outlineKey o = some k →
        o.renders = rendersWithKey k outlines) ∧
      totalRenders merged = totalRenders outlines := by
  obtain ⟨m2, h1, h2, h3, h4, h5, h6⟩ := mergeOutlinesAux_spec outlines [] hdom
  have hg : goodMap m2 := h2 fun p hp => absurd hp (List.not_mem_nil p)
  have hn : (mapKeys m2).Nodup := h3 (by simp [mapKeys])
  refine ⟨m2.map Prod.snd, ?_, ?_, ?_, ?_, ?_⟩
  · unfold mergeOutlines
    rw [h1]
    rfl
  · rw [values_filterMap_outlineKey m2 hg]
    exact hn
  · intro k
    constructor
    · rintro ⟨o2, ho2, hk⟩
      obtain ⟨p, hp, rfl⟩ := List.mem_map.mp ho2
      have hpk := hg p hp
      rw [hpk] at hk
      obtain rfl := Option.some_injective _ hk
      have hkm : p.1 ∈ mapKeys m2 := List.mem_map_of_mem Prod.fst hp
      rcases (h5 p.1).mp hkm with hc | hc
      · simp [mapKeys] at hc
      · exact hc
    · intro hex
      have hkm : k ∈ mapKeys m2 := (h5 k).mpr (Or.inr hex)
      obtain ⟨p, hp, hpk⟩ := List.mem_map.mp hkm
      refine ⟨p.2, List.mem_map_of_mem Prod.snd hp, ?_⟩
      rw [hg p hp, hpk]
  · intro o2 ho2 k hk
    obtain ⟨p, hp, rfl⟩ := List.mem_map.mp ho2
    have hpk := hg p hp
    have hp1 : p.1 = k := Option.some_injective _ (hpk.symm.trans hk)
    have hfind : findEntry m2 k = some p.2 := by
      have hf := findEntry_of_mem m2 p hn hp
      rwa [hp1] at hf
    have hren := h4 k
    unfold entryRenders at hren
    rw [hfind] at hren
    simpa [findEntry] using hren
  · have hv : totalRenders (m2.map Prod.snd) = totalEntryRenders m2 := by
      simp [totalRenders, totalEntryRenders, List.map_map]
      rfl
    rw [hv, h6]
    simp [totalEntryRenders]

/-- Witness for `c6_merge_outlines_spec`: three concrete outlines, two of
which share a region key, merge into two outlines with the shared key's
renders concatenated. -/
theorem c6_merge_outlines_witness :
    mergeOutlines [pending0, pending2, pending1] =
      Except.ok [{ pending0 with renders := [render0, render1] }, pending2] := by
  obtain ⟨m, h1, _, _, _, _⟩ :=
    c6_merge_outlines_spec [pending0, pending2, pending1] (by decide)
  exact h1.trans (h1.symm.trans rfl)
